import Mathlib

/-!
Verification of the go_remind_me repository: a shallow embedding of the
reminder data model (`reminder/reminder.go`), the datetime resolver
(`datetime/datetime.go`), the markdown parser (`parser`), and the TUI tick
and edit operations, together with theorems settling the specification
claims.

Conventions of the embedding:
* Go strings are `List Char`; Go byte/rune handling is modelled at rune level.
* `time.Time` is an `Int`: nanoseconds since the local epoch.  The local
  zone is modelled as a fixed offset (no DST), under which Go's
  `AddDate(0,0,n)` is `+ n` days and `time.Date(t.Year(), t.Month(),
  t.Day(), h, m, s, 0, Local)` is "same calendar day at clock h:m:s".
* Machine arithmetic that can overflow is modelled explicitly:
  `strconv.Atoi` checks the signed 64-bit range, and `time.Duration`
  multiplication wraps modulo 2^64 (two's complement).
* Fallible Go functions return `Option`.
-/

set_option maxRecDepth 4000

namespace GoRemind

/-- Go strings, at rune granularity. -/
abbrev GoStr := List Char

/-! ### Character classes -/

/-- `unicode.IsSpace` (the Unicode White_Space property: tab through
carriage return, space, NEL, NBSP, the ogham space mark, U+2000-U+200A,
the line and paragraph separators, NNBSP, MMSP and the ideographic space),
used by `strings.Fields` and `strings.TrimSpace`.  Stated on code points so
that class membership is plain arithmetic. -/
def isSpaceGo (c : Char) : Bool :=
  (9 ≤ c.toNat ∧ c.toNat ≤ 13) ∨ c.toNat = 32 ∨ c.toNat = 133 ∨
  c.toNat = 160 ∨ c.toNat = 5760 ∨ (8192 ≤ c.toNat ∧ c.toNat ≤ 8202) ∨
  c.toNat = 8232 ∨ c.toNat = 8233 ∨ c.toNat = 8239 ∨ c.toNat = 8287 ∨
  c.toNat = 12288

/-- RE2's `\s` class: `[\t\n\f\r ]` (note: no vertical tab, ASCII only). -/
def isSpaceRe (c : Char) : Bool :=
  c.toNat = 32 ∨ c.toNat = 9 ∨ c.toNat = 10 ∨ c.toNat = 12 ∨ c.toNat = 13

/-- ASCII digit. -/
def isDigitCh (c : Char) : Bool := 48 ≤ c.toNat ∧ c.toNat ≤ 57

/-- RE2's `\w` class: `[0-9A-Za-z_]`. -/
def isWordCh (c : Char) : Bool :=
  isDigitCh c ∨ (97 ≤ c.toNat ∧ c.toNat ≤ 122) ∨
  (65 ≤ c.toNat ∧ c.toNat ≤ 90) ∨ c.toNat = 95

/-- ASCII case folding of one rune.  Go's `strings.ToLower` additionally
maps a few non-ASCII code points; those are not modelled. -/
def lowerCh (c : Char) : Char :=
  if 65 ≤ c.toNat ∧ c.toNat ≤ 90 then Char.ofNat (c.toNat + 32) else c

/-- `strings.ToLower`, restricted to the ASCII mapping. -/
def goToLower (s : GoStr) : GoStr := s.map lowerCh

/-! ### strings.TrimSpace / strings.Fields / strings.Join -/

/-- `strings.TrimSpace`. -/
def goTrim (s : GoStr) : GoStr :=
  ((s.dropWhile isSpaceGo).reverse.dropWhile isSpaceGo).reverse

/-- Worker for `fields`: `acc` is the current word, reversed. -/
def fieldsAux : GoStr → GoStr → List GoStr
  | [], acc => if acc = [] then [] else [acc.reverse]
  | c :: cs, acc =>
    if isSpaceGo c then
      if acc = [] then fieldsAux cs [] else acc.reverse :: fieldsAux cs []
    else fieldsAux cs (c :: acc)

/-- `strings.Fields`: split around runs of white space. -/
def fields (s : GoStr) : List GoStr := fieldsAux s []

/-- `strings.Join(ws, " ")`. -/
def joinSpace : List GoStr → GoStr
  | [] => []
  | [w] => w
  | w :: ws => w ++ ' ' :: joinSpace ws

/-! ### Integers: strconv.Atoi and 64-bit wrap-around -/

def maxInt64 : Int := 9223372036854775807

/-- Reduce an integer to its two's-complement signed 64-bit value, as Go's
`int64` multiplication does on overflow. -/
def wrap64 (x : Int) : Int := (x + 2 ^ 63) % 2 ^ 64 - 2 ^ 63

/-- Numeric value of a digit string. -/
def digitsVal (ds : GoStr) : Int :=
  ds.foldl (fun a c => a * 10 + ((c.toNat : Int) - 48)) 0

/-- `strconv.Atoi` on the digit-only strings the reminder code feeds it:
fails (`ErrRange`) beyond the signed 64-bit range.  (Signs, empty input and
non-digits never reach `Atoi` in this code base.) -/
def goAtoi (ds : GoStr) : Option Int :=
  if ds ≠ [] ∧ ds.all isDigitCh then
    if digitsVal ds ≤ maxInt64 then some (digitsVal ds) else none
  else none

/-- `strconv.Atoi` with the error ignored, as `parseInDuration` does: on
positive overflow Go returns the clamped cutoff `maxInt64`. -/
def atoiClamp (ds : GoStr) : Int := min (digitsVal ds) maxInt64

/-! ### The time model -/

/-- `time.Time`: nanoseconds since the local epoch (fixed-offset zone). -/
abbrev GoTime := Int

def secNs : Int := 1000000000
def minuteNs : Int := 60000000000
def hourNs : Int := 3600000000000
def dayNs : Int := 86400000000000

/-- The calendar day a time falls on. -/
def floorDay (t : GoTime) : Int := t / dayNs

/-- Nanoseconds since local midnight. -/
def timeOfDay (t : GoTime) : Int := t % dayNs

/-- `t.Weekday()` (0 = Sunday).  Day 0 of the epoch (1970-01-01) is a
Thursday (= 4). -/
def weekdayOf (t : GoTime) : Int := (floorDay t + 4) % 7

/-- `t.AddDate(0, 0, n)` under a fixed-offset zone: same clock time, `n`
calendar days later. -/
def addDays (t : GoTime) (n : Int) : GoTime := t + n * dayNs

/-- `time.Date(t.Year(), t.Month(), t.Day(), h, m, s, 0, time.Local)` under
a fixed-offset zone: the same calendar day at clock `h:m:s`. -/
def atClock (t : GoTime) (h m s : Int) : GoTime :=
  floorDay t * dayNs + h * hourNs + m * minuteNs + s * secNs

/-- Day number of a civil date (Howard Hinnant's `days_from_civil`); linear
in `d`, which reproduces Go's `time.Date` normalisation of out-of-range
days (e.g. Feb 29 of a common year becomes Mar 1). -/
def daysFromCivil (y m d : Int) : Int :=
  let y2 := if m ≤ 2 then y - 1 else y
  let era := y2.ediv 400
  let yoe := y2 - era * 400
  let mp := (m + 9).emod 12
  let doy := (153 * mp + 2).ediv 5 + d - 1
  let doe := yoe * 365 + yoe.ediv 4 - yoe.ediv 100 + doy
  era * 146097 + doe - 719468

/-- Civil date of a day number (Hinnant's `civil_from_days`): used for the
`t.Year()` accessor. -/
def civilFromDays (z0 : Int) : Int × Int × Int :=
  let z := z0 + 719468
  let era := z.ediv 146097
  let doe := z - era * 146097
  let yoe := (doe - doe.ediv 1460 + doe.ediv 36524 - doe.ediv 146096).ediv 365
  let y := yoe + era * 400
  let doy := doe - (365 * yoe + yoe.ediv 4 - yoe.ediv 100)
  let mp := (5 * doy + 2).ediv 153
  let d := doy - (153 * mp + 2).ediv 5 + 1
  let m := if mp < 10 then mp + 3 else mp - 9
  (if m ≤ 2 then y + 1 else y, m, d)

/-- `t.Year()`. -/
def yearOf (t : GoTime) : Int := (civilFromDays (floorDay t)).1

/-! ### The datetime resolver (`datetime/datetime.go`)

`relativePattern` is `^\+(\d+[dhms])+$`; it is modelled by the
checker `relMatch` below (an automaton for exactly that grammar). -/

mutual

/-- State of the `relativePattern` automaton after at least one digit of the
current group: accepts `\d*[dhms]` followed by more groups or the end. -/
def relDigits : GoStr → Bool
  | [] => false
  | c :: cs =>
    if isDigitCh c then relDigits cs
    else if c = 'd' ∨ c = 'h' ∨ c = 'm' ∨ c = 's' then relTail cs
    else false

/-- State of the `relativePattern` automaton between groups: accepts the
end of the string or another `\d+[dhms]` group. -/
def relTail : GoStr → Bool
  | [] => true
  | c :: cs => if isDigitCh c then relDigits cs else false

end

/-- `relativePattern.MatchString`. -/
def relMatch : GoStr → Bool
  | '+' :: c :: cs => isDigitCh c && relDigits cs
  | _ => false

/-- The character loop of `parseRelative`: `cur` is the pending digit run,
`res` the accumulated time.  `time.Duration(num) * 24 * time.Hour` is two
64-bit multiplications, each wrapping. -/
def relLoop : GoStr → GoStr → GoTime → Option GoTime
  | [], _, res => some res
  | c :: cs, cur, res =>
    if isDigitCh c then relLoop cs (cur ++ [c]) res
    else if cur = [] then none
    else
      match goAtoi cur with
      | none => none
      | some num =>
        if c = 'd' then relLoop cs [] (res + wrap64 (wrap64 (num * 24) * hourNs))
        else if c = 'h' then relLoop cs [] (res + wrap64 (num * hourNs))
        else if c = 'm' then relLoop cs [] (res + wrap64 (num * minuteNs))
        else if c = 's' then relLoop cs [] (res + wrap64 (num * secNs))
        else none

/-- `parseRelative`: strips the leading `+` and folds the groups. -/
def parseRelative (input : GoStr) (relativeTo : GoTime) : Option GoTime :=
  relLoop (input.drop 1) [] relativeTo

/-! #### The Go layout engine, for the formats the source lists -/

/-- The layout tokens occurring in `absoluteFormats` and
`timeOnlyFormats`. -/
inductive LTok where
  | lit (c : Char)
  | y4
  | mo2
  | moAbbr
  | moFull
  | d1
  | d2
  | h24
  | h12
  | min2
  | sec2
  | pmL
  | pmU
deriving DecidableEq, Repr

/-- The components `time.Parse` accumulates (Go's zero defaults: year 0,
January 1, midnight). -/
structure DTParts where
  year : Int := 0
  month : Int := 1
  day : Int := 1
  hour : Int := 0
  minute : Int := 0
  second : Int := 0
  pm : Bool := false
  am : Bool := false
deriving DecidableEq, Repr

/-- Go's `getnum` with `fixed = false`: one or two digits. -/
def getnum2 : GoStr → Option (Int × GoStr)
  | [] => none
  | [c1] => if isDigitCh c1 then some (digitsVal [c1], []) else none
  | c1 :: c2 :: rest =>
    if isDigitCh c1 then
      if isDigitCh c2 then some (digitsVal [c1, c2], rest)
      else some (digitsVal [c1], c2 :: rest)
    else none

/-- Go's `getnum` with `fixed = true`: exactly two digits. -/
def getnum2f : GoStr → Option (Int × GoStr)
  | c1 :: c2 :: rest =>
    if isDigitCh c1 ∧ isDigitCh c2 then some (digitsVal [c1, c2], rest)
    else none
  | _ => none

/-- Go's four-digit year read. -/
def getnum4 : GoStr → Option (Int × GoStr)
  | c1 :: c2 :: c3 :: c4 :: rest =>
    if isDigitCh c1 ∧ isDigitCh c2 ∧ isDigitCh c3 ∧ isDigitCh c4 then
      some (digitsVal [c1, c2, c3, c4], rest)
    else none
  | _ => none

/-- Case-insensitive match of a known (lowercase) name against the head of
the value, as Go's `match` does for month names. -/
def matchCI : GoStr → GoStr → Option GoStr
  | [], v => some v
  | _ :: _, [] => none
  | p :: ps, c :: vs => if lowerCh c = p then matchCI ps vs else none

def monthAbbrNames : List GoStr :=
  ["jan", "feb", "mar", "apr", "may", "jun",
   "jul", "aug", "sep", "oct", "nov", "dec"].map String.toList

def monthFullNames : List GoStr :=
  ["january", "february", "march", "april", "may", "june", "july",
   "august", "september", "october", "november", "december"].map
    String.toList

/-- Go's `lookup`: first name that is a (case-insensitive) head of the
value; yields the 1-based index. -/
def lookupName : List GoStr → Int → GoStr → Option (Int × GoStr)
  | [], _, _ => none
  | nm :: nms, i, v =>
    match matchCI nm v with
    | some rest => some (i + 1, rest)
    | none => lookupName nms (i + 1) v

/-- The format-driven scan of `time.Parse`, with Go's inline range
checks. -/
def runLayout : List LTok → GoStr → DTParts → Option DTParts
  | [], [], p => some p
  | [], _ :: _, _ => none
  | LTok.lit c :: ts, v, p =>
    match v with
    | c2 :: vs => if c2 = c then runLayout ts vs p else none
    | [] => none
  | LTok.y4 :: ts, v, p =>
    match getnum4 v with
    | some (n, rest) => runLayout ts rest { p with year := n }
    | none => none
  | LTok.mo2 :: ts, v, p =>
    match getnum2f v with
    | some (n, rest) =>
      if 1 ≤ n ∧ n ≤ 12 then runLayout ts rest { p with month := n }
      else none
    | none => none
  | LTok.moAbbr :: ts, v, p =>
    match lookupName monthAbbrNames 0 v with
    | some (n, rest) => runLayout ts rest { p with month := n }
    | none => none
  | LTok.moFull :: ts, v, p =>
    match lookupName monthFullNames 0 v with
    | some (n, rest) => runLayout ts rest { p with month := n }
    | none => none
  | LTok.d1 :: ts, v, p =>
    match getnum2 v with
    | some (n, rest) => runLayout ts rest { p with day := n }
    | none => none
  | LTok.d2 :: ts, v, p =>
    match getnum2f v with
    | some (n, rest) => runLayout ts rest { p with day := n }
    | none => none
  | LTok.h24 :: ts, v, p =>
    match getnum2 v with
    | some (n, rest) =>
      if n < 24 then runLayout ts rest { p with hour := n } else none
    | none => none
  | LTok.h12 :: ts, v, p =>
    match getnum2 v with
    | some (n, rest) =>
      if n ≤ 12 then runLayout ts rest { p with hour := n } else none
    | none => none
  | LTok.min2 :: ts, v, p =>
    match getnum2f v with
    | some (n, rest) =>
      if n < 60 then runLayout ts rest { p with minute := n } else none
    | none => none
  | LTok.sec2 :: ts, v, p =>
    match getnum2f v with
    | some (n, rest) =>
      if n < 60 then runLayout ts rest { p with second := n } else none
    | none => none
  | LTok.pmL :: ts, v, p =>
    match v with
    | 'p' :: 'm' :: vs => runLayout ts vs { p with pm := true }
    | 'a' :: 'm' :: vs => runLayout ts vs { p with am := true }
    | _ => none
  | LTok.pmU :: ts, v, p =>
    match v with
    | 'P' :: 'M' :: vs => runLayout ts vs { p with pm := true }
    | 'A' :: 'M' :: vs => runLayout ts vs { p with am := true }
    | _ => none

/-- Go's leap-year rule. -/
def isLeap (y : Int) : Bool := y % 4 = 0 ∧ (y % 100 ≠ 0 ∨ y % 400 = 0)

/-- Go's `daysIn`. -/
def daysInMonth (m y : Int) : Int :=
  if m = 2 then (if isLeap y then 29 else 28)
  else if m = 4 ∨ m = 6 ∨ m = 9 ∨ m = 11 then 30
  else 31

/-- Go's end-of-parse steps: the day-of-month range check and the
AM/PM-to-24h adjustment. -/
def finishParts (p : DTParts) : Option DTParts :=
  if p.day < 1 ∨ daysInMonth p.month p.year < p.day then none
  else if p.pm ∧ p.hour < 12 then some { p with hour := p.hour + 12 }
  else if p.am ∧ p.hour = 12 then some { p with hour := 0 }
  else some p

/-- Civil components to an instant (fixed-offset local zone). -/
def mkAbsTime (p : DTParts) : GoTime :=
  daysFromCivil p.year p.month p.day * dayNs +
    p.hour * hourNs + p.minute * minuteNs + p.second * secNs

/-- The `absoluteFormats` list, as layout token lists, in source order. -/
def absoluteLayouts : List (List LTok) :=
  [[LTok.y4, LTok.lit '-', LTok.mo2, LTok.lit '-', LTok.d2, LTok.lit 'T',
    LTok.h24, LTok.lit ':', LTok.min2],
   [LTok.y4, LTok.lit '-', LTok.mo2, LTok.lit '-', LTok.d2, LTok.lit 'T',
    LTok.h24, LTok.lit ':', LTok.min2, LTok.lit ':', LTok.sec2],
   [LTok.y4, LTok.lit '-', LTok.mo2, LTok.lit '-', LTok.d2, LTok.lit ' ',
    LTok.h24, LTok.lit ':', LTok.min2],
   [LTok.y4, LTok.lit '-', LTok.mo2, LTok.lit '-', LTok.d2, LTok.lit ' ',
    LTok.h24, LTok.lit ':', LTok.min2, LTok.lit ':', LTok.sec2],
   [LTok.moAbbr, LTok.lit ' ', LTok.d1, LTok.lit ' ', LTok.y4, LTok.lit ' ',
    LTok.h12, LTok.lit ':', LTok.min2, LTok.pmL],
   [LTok.moAbbr, LTok.lit ' ', LTok.d1, LTok.lit ' ', LTok.y4, LTok.lit ' ',
    LTok.h12, LTok.lit ':', LTok.min2, LTok.pmU],
   [LTok.moAbbr, LTok.lit ' ', LTok.d1, LTok.lit ' ', LTok.y4, LTok.lit ' ',
    LTok.h12, LTok.pmL],
   [LTok.moAbbr, LTok.lit ' ', LTok.d1, LTok.lit ' ', LTok.y4, LTok.lit ' ',
    LTok.h12, LTok.pmU],
   [LTok.moFull, LTok.lit ' ', LTok.d1, LTok.lit ' ', LTok.y4, LTok.lit ' ',
    LTok.h12, LTok.lit ':', LTok.min2, LTok.pmL],
   [LTok.moFull, LTok.lit ' ', LTok.d1, LTok.lit ' ', LTok.y4, LTok.lit ' ',
    LTok.h12, LTok.lit ':', LTok.min2, LTok.pmU],
   [LTok.moFull, LTok.lit ' ', LTok.d1, LTok.lit ' ', LTok.y4, LTok.lit ' ',
    LTok.h12, LTok.pmL],
   [LTok.moFull, LTok.lit ' ', LTok.d1, LTok.lit ' ', LTok.y4, LTok.lit ' ',
    LTok.h12, LTok.pmU],
   [LTok.moAbbr, LTok.lit ' ', LTok.d1, LTok.lit ' ', LTok.h12, LTok.lit ':',
    LTok.min2, LTok.pmL],
   [LTok.moAbbr, LTok.lit ' ', LTok.d1, LTok.lit ' ', LTok.h12, LTok.lit ':',
    LTok.min2, LTok.pmU],
   [LTok.moAbbr, LTok.lit ' ', LTok.d1, LTok.lit ' ', LTok.h12, LTok.pmL],
   [LTok.moAbbr, LTok.lit ' ', LTok.d1, LTok.lit ' ', LTok.h12, LTok.pmU],
   [LTok.moFull, LTok.lit ' ', LTok.d1, LTok.lit ' ', LTok.h12, LTok.lit ':',
    LTok.min2, LTok.pmL],
   [LTok.moFull, LTok.lit ' ', LTok.d1, LTok.lit ' ', LTok.h12, LTok.lit ':',
    LTok.min2, LTok.pmU],
   [LTok.moFull, LTok.lit ' ', LTok.d1, LTok.lit ' ', LTok.h12, LTok.pmL],
   [LTok.moFull, LTok.lit ' ', LTok.d1, LTok.lit ' ', LTok.h12, LTok.pmU]]

/-- The `timeOnlyFormats` list, as layout token lists, in source order. -/
def timeOnlyLayouts : List (List LTok) :=
  [[LTok.h12, LTok.lit ':', LTok.min2, LTok.pmL],
   [LTok.h12, LTok.lit ':', LTok.min2, LTok.pmU],
   [LTok.h12, LTok.lit ':', LTok.min2, LTok.lit ' ', LTok.pmL],
   [LTok.h12, LTok.lit ':', LTok.min2, LTok.lit ' ', LTok.pmU],
   [LTok.h12, LTok.pmL],
   [LTok.h12, LTok.pmU],
   [LTok.h12, LTok.lit ' ', LTok.pmL],
   [LTok.h12, LTok.lit ' ', LTok.pmU],
   [LTok.h24, LTok.lit ':', LTok.min2],
   [LTok.h24, LTok.lit ':', LTok.min2, LTok.lit ':', LTok.sec2]]

/-- Try each format in order; a failed parse (including the day-range
check) falls through to the next format. -/
def tryLayouts : List (List LTok) → GoStr → Option DTParts
  | [], _ => none
  | l :: rest, v =>
    match runLayout l v {} with
    | some p =>
      match finishParts p with
      | some p2 => some p2
      | none => tryLayouts rest v
    | none => tryLayouts rest v

/-- The `absoluteFormats` loop of `Parse`, including the year-0 fix-up
`t.AddDate(relativeTo.Year(), 0, 0)`. -/
def tryAbsolute (input : GoStr) (relativeTo : GoTime) : Option GoTime :=
  match tryLayouts absoluteLayouts input with
  | some p =>
    if p.year = 0 then some (mkAbsTime { p with year := yearOf relativeTo })
    else some (mkAbsTime p)
  | none => none

/-- The `timeOnlyFormats` loop of `Parse`: today's date with the parsed
clock time. -/
def tryTimeOnly (input : GoStr) (relativeTo : GoTime) : Option GoTime :=
  match tryLayouts timeOnlyLayouts input with
  | some p => some (atClock relativeTo p.hour p.minute p.second)
  | none => none

/-- `parseTomorrow`. -/
def parseTomorrow (input : GoStr) (relativeTo : GoTime) : Option GoTime :=
  let tomorrow := addDays relativeTo 1
  let lower := goToLower input
  if lower = "tomorrow".toList then some (atClock tomorrow 9 0 0)
  else
    match tryLayouts timeOnlyLayouts (goTrim (input.drop 8)) with
    | some p => some (atClock tomorrow p.hour p.minute p.second)
    | none => none

/-- Split at the longest run satisfying `p`. -/
def spanP (p : Char → Bool) (s : GoStr) : GoStr × GoStr :=
  (s.takeWhile p, s.dropWhile p)

def inUnits : List GoStr :=
  ["d", "day", "days", "h", "hour", "hours", "m", "min", "mins",
   "minute", "minutes"].map String.toList

/-- `inPattern` = `^in\s+(\d+)\s*(d|day|…|minutes)$`, returning the two
capture groups. -/
def inPatternMatch (s : GoStr) : Option (GoStr × GoStr) :=
  match s with
  | 'i' :: 'n' :: rest =>
    let sp := spanP isSpaceRe rest
    if sp.1 = [] then none
    else
      let dg := spanP isDigitCh sp.2
      if dg.1 = [] then none
      else
        let sp2 := spanP isSpaceRe dg.2
        if sp2.2 ∈ inUnits then some (dg.1, sp2.2) else none
  | _ => none

/-- `parseInDuration`: `Atoi` error ignored (clamped value used), then a
switch on the first byte of the unit. -/
def parseInDuration (ds unit : GoStr) (relativeTo : GoTime) :
    Option GoTime :=
  let num := atoiClamp ds
  match unit with
  | 'd' :: _ => some (addDays relativeTo num)
  | 'h' :: _ => some (relativeTo + wrap64 (num * hourNs))
  | 'm' :: _ => some (relativeTo + wrap64 (num * minuteNs))
  | _ => none

/-- The `weekdays` map (0 = Sunday). -/
def wkTable : List (GoStr × Int) :=
  [("sunday", 0), ("sun", 0), ("monday", 1), ("mon", 1), ("tuesday", 2),
   ("tue", 2), ("tues", 2), ("wednesday", 3), ("wed", 3), ("thursday", 4),
   ("thu", 4), ("thurs", 4), ("friday", 5), ("fri", 5), ("saturday", 6),
   ("sat", 6)].map (fun p => (p.1.toList, p.2))

def wkFind : GoStr → List (GoStr × Int) → Option Int
  | _, [] => none
  | l, (k, v) :: t => if l = k then some v else wkFind l t

def lookupWeekday (l : GoStr) : Option Int := wkFind l wkTable

/-- `parseWeekday`. -/
def parseWeekday (input : GoStr) (relativeTo : GoTime) : Option GoTime :=
  match fields input with
  | [] => none
  | w :: rest =>
    match lookupWeekday w with
    | none => none
    | some targetDay =>
      let currentDay := weekdayOf relativeTo
      let du := targetDay - currentDay
      let daysUntil := if du ≤ 0 then du + 7 else du
      let targetDate := addDays relativeTo daysUntil
      match rest with
      | [] => some (atClock targetDate 9 0 0)
      | _ :: _ =>
        match tryLayouts timeOnlyLayouts (joinSpace rest) with
        | some p => some (atClock targetDate p.hour p.minute 0)
        | none => none

/-- `strings.HasPrefix s pat`. -/
def startsWithL : GoStr → GoStr → Bool
  | _, [] => true
  | [], _ :: _ => false
  | c :: cs, q :: qs => c = q && startsWithL cs qs

/-- `datetime.Parse`: trim, then dispatch in source order (tomorrow, the
`in …` pattern, weekday, the relative pattern, absolute formats, time-only
formats). -/
def Parse (input0 : GoStr) (relativeTo : GoTime) : Option GoTime :=
  let input := goTrim input0
  let lower := goToLower input
  if startsWithL lower "tomorrow".toList then parseTomorrow input relativeTo
  else
    match inPatternMatch lower with
    | some (ds, unit) => parseInDuration ds unit relativeTo
    | none =>
      match parseWeekday lower relativeTo with
      | some t => some t
      | none =>
        if relMatch input then parseRelative input relativeTo
        else
          match tryAbsolute input relativeTo with
          | some t => some t
          | none => tryTimeOnly input relativeTo

/-! #### The grammar of relative phrases, for stating C5 -/

/-- Nanoseconds denoted by one unit letter of a relative phrase (a day
counted as 24 hours). -/
def unitNs (u : Char) : Int :=
  if u = 'd' then 86400000000000
  else if u = 'h' then hourNs
  else if u = 'm' then minuteNs
  else secNs

/-- A relative phrase `+<digits><unit>…` assembled from its groups (each
group: a non-empty digit string and a unit letter). -/
def renderRel (ps : List (GoStr × Char)) : GoStr :=
  '+' :: (ps.map (fun p => p.1 ++ [p.2])).flatten

/-- The literal sum of a phrase's durations. -/
def sumRelNs (ps : List (GoStr × Char)) : Int :=
  (ps.map (fun p => digitsVal p.1 * unitNs p.2)).sum

/-! ### The reminder data model (`reminder/reminder.go`) -/

/-- `reminder.Status`. -/
inductive Status where
  | pending
  | triggered
  | acknowledged
deriving DecidableEq, Repr

/-- `reminder.Reminder`. -/
structure Reminder where
  dateTime : GoTime
  description : GoStr
  tags : List GoStr
  sourceFile : GoStr
  lineNumber : Nat
  status : Status
deriving DecidableEq, Repr

/-! ### The markdown parser (`parser`, src/unnamed/part_005)

`tagPattern` is `(?:^|\s)#(\w+)`.  `ExtractTags` needs both
`FindAllStringSubmatch` (the captured words, left to right) and
`ReplaceAllString` (the text with every match deleted); both are produced
by one left-to-right scan with RE2's leftmost semantics. -/

/-- The scan at a non-start position: a match here must begin with a `\s`
character (which the match consumes).  `fuel` only drives structural
recursion; every call site passes at least the length of the string, so the
fuel-exhausted base case is never reached. -/
def tagScanF : Nat → GoStr → GoStr × List GoStr
  | 0, s => (s, [])
  | _ + 1, [] => ([], [])
  | fuel + 1, c :: cs =>
    if isSpaceRe c ∧ cs.head? = some '#' then
      let w := cs.tail.takeWhile isWordCh
      if w = [] then
        let r := tagScanF fuel cs
        (c :: r.1, r.2)
      else
        let r := tagScanF fuel (cs.tail.dropWhile isWordCh)
        (r.1, w :: r.2)
    else
      let r := tagScanF fuel cs
      (c :: r.1, r.2)

/-- The scan at a non-start position, with enough fuel. -/
def tagScanAux (s : GoStr) : GoStr × List GoStr := tagScanF s.length s

/-- The scan at position 0, where the `^` alternative also applies. -/
def tagScanTop (s : GoStr) : GoStr × List GoStr :=
  if s.head? = some '#' then
    let w := s.tail.takeWhile isWordCh
    if w = [] then tagScanAux s
    else
      let r := tagScanAux (s.tail.dropWhile isWordCh)
      (r.1, w :: r.2)
  else tagScanAux s

/-- `parser.ExtractTags`: delete the matches, collect the captures, trim,
and collapse runs of white space to single spaces. -/
def ExtractTags (text : GoStr) : GoStr × List GoStr :=
  let r := tagScanTop text
  let clean := goTrim r.1
  (joinSpace (fields clean), r.2)

/-- The prefix-splitting loop of `parseReminderContent`, from
`numDateWords = len(words)-1` down to `1`. -/
def prcLoop (words : List GoStr) (relativeTo : GoTime) :
    Nat → Option Reminder
  | 0 => none
  | Nat.succ k =>
    let dateStr := joinSpace (words.take (k + 1))
    let descStr := joinSpace (words.drop (k + 1))
    match Parse dateStr relativeTo with
    | some t =>
      let et := ExtractTags descStr
      some ⟨t, et.1, et.2, [], 0, Status.pending⟩
    | none => prcLoop words relativeTo k

/-- `parser.parseReminderContent`: the content between `[remind_me` and
`]`, with `SourceFile`/`LineNumber` still unset (the caller fills them). -/
def parseReminderContent (content : GoStr) (relativeTo : GoTime) :
    Option Reminder :=
  let words := fields content
  if words.length < 2 then none
  else prcLoop words relativeTo (words.length - 1)

/-! ### The TUI scheduler tick and the edit action (`tui`) -/

/-- One reminder under the `TickMsg` scan of `tui.Update`
(`now.After(r.DateTime)` is a strict comparison). -/
def tick1 (now : GoTime) (r : Reminder) : Reminder :=
  if r.status = Status.pending ∧ r.dateTime < now then
    { r with status := Status.triggered }
  else r

/-- The whole `TickMsg` scan over the live collection. -/
def tickScan (now : GoTime) (rs : List Reminder) : List Reminder :=
  rs.map (tick1 now)

/-- The prefix-splitting loop of `tui.updateReminder` (src/unnamed/part_016;
part_014 differs only in extracting tags from the new description, which
does not affect `DateTime`/`Status`). -/
def updLoop (r : Reminder) (words : List GoStr) (now : GoTime) :
    Nat → Option Reminder
  | 0 => none
  | Nat.succ k =>
    let dateStr := joinSpace (words.take (k + 1))
    let descStr := joinSpace (words.drop (k + 1))
    match Parse dateStr now with
    | some t =>
      let st :=
        if t < now then
          if r.status ≠ Status.acknowledged then Status.triggered
          else r.status
        else
          if r.status = Status.triggered then Status.pending else r.status
      some { r with dateTime := t, description := descStr, status := st }
    | none => updLoop r words now k

/-- `tui.updateReminder`. -/
def updateReminder (r : Reminder) (input : GoStr) (now : GoTime) :
    Option Reminder :=
  let input1 := goTrim input
  if input1 = [] then none
  else
    let words := fields input1
    if words.length < 2 then none
    else updLoop r words now (words.length - 1)

/-! ### MergeFromFile (`reminder/reminder.go`, lines 64-107)

The Go map `newByDesc` is only ever queried for key existence, so it is
modelled by membership in the list of new descriptions; the Go boolean map
`matchedDescs` is modelled by a list of the descriptions marked true. -/

/-- One iteration of the first loop of `MergeFromFile`: threads the result
slice and the `matchedDescs` set. -/
def mergeStep (filePath : GoStr) (newDescs : List GoStr)
    (acc : List Reminder × List GoStr) (r : Reminder) :
    List Reminder × List GoStr :=
  if r.sourceFile ≠ filePath then (acc.1 ++ [r], acc.2)
  else if r.status = Status.acknowledged then
    (acc.1 ++ [r], acc.2 ++ [r.description])
  else if r.description ∈ newDescs then
    (acc.1 ++ [r], acc.2 ++ [r.description])
  else acc

/-- `reminder.MergeFromFile`. -/
def MergeFromFile (existing : List Reminder) (filePath : GoStr)
    (newReminders : List Reminder) : List Reminder :=
  let newDescs := newReminders.map (·.description)
  let res := existing.foldl (mergeStep filePath newDescs) ([], [])
  res.1 ++ newReminders.filter (fun r => decide (r.description ∉ res.2))

/-! #### A closed form for `MergeFromFile` -/

/-- Which existing reminders the first loop keeps. -/
def keepB (filePath : GoStr) (newDescs : List GoStr) (r : Reminder) : Bool :=
  decide (r.sourceFile ≠ filePath ∨ r.status = Status.acknowledged ∨
    r.description ∈ newDescs)

/-- Which existing reminders contribute their description to
`matchedDescs`. -/
def markB (filePath : GoStr) (newDescs : List GoStr) (r : Reminder) : Bool :=
  decide (r.sourceFile = filePath ∧ (r.status = Status.acknowledged ∨
    r.description ∈ newDescs))

theorem mergeFold_eq (filePath : GoStr) (newDescs : List GoStr)
    (l : List Reminder) (acc1 : List Reminder) (acc2 : List GoStr) :
    l.foldl (mergeStep filePath newDescs) (acc1, acc2) =
      (acc1 ++ l.filter (keepB filePath newDescs),
       acc2 ++ (l.filter (markB filePath newDescs)).map (·.description)) := by
  induction l generalizing acc1 acc2 with
  | nil => simp
  | cons r t ih =>
    rw [List.foldl_cons]
    by_cases h1 : r.sourceFile = filePath
    · by_cases h2 : r.status = Status.acknowledged
      · have hs : mergeStep filePath newDescs (acc1, acc2) r =
            (acc1 ++ [r], acc2 ++ [r.description]) := by
          simp [mergeStep, h1, h2]
        have hk : keepB filePath newDescs r = true := by simp [keepB, h2]
        have hm : markB filePath newDescs r = true := by simp [markB, h1, h2]
        rw [hs, ih, List.filter_cons, List.filter_cons, hk, hm]
        simp
      · by_cases h3 : r.description ∈ newDescs
        · have hs : mergeStep filePath newDescs (acc1, acc2) r =
              (acc1 ++ [r], acc2 ++ [r.description]) := by
            simp [mergeStep, h1, h2, h3]
          have hk : keepB filePath newDescs r = true := by simp [keepB, h3]
          have hm : markB filePath newDescs r = true := by
            simp [markB, h1, h3]
          rw [hs, ih, List.filter_cons, List.filter_cons, hk, hm]
          simp
        · have hs : mergeStep filePath newDescs (acc1, acc2) r =
              (acc1, acc2) := by
            simp [mergeStep, h1, h2, h3]
          have hk : keepB filePath newDescs r = false := by
            simp [keepB, h1, h2, h3]
          have hm : markB filePath newDescs r = false := by
            simp [markB, h2, h3]
          rw [hs, ih, List.filter_cons, List.filter_cons, hk, hm]
          simp
    · have hs : mergeStep filePath newDescs (acc1, acc2) r =
          (acc1 ++ [r], acc2) := by
        simp [mergeStep, h1]
      have hk : keepB filePath newDescs r = true := by simp [keepB, h1]
      have hm : markB filePath newDescs r = false := by simp [markB, h1]
      rw [hs, ih, List.filter_cons, List.filter_cons, hk, hm]
      simp

/-- Closed form of `MergeFromFile`: kept existing reminders, in order,
followed by the unmatched new reminders. -/
theorem MergeFromFile_eq (existing : List Reminder) (filePath : GoStr)
    (newReminders : List Reminder) :
    MergeFromFile existing filePath newReminders =
      existing.filter (keepB filePath (newReminders.map (·.description))) ++
      newReminders.filter (fun n =>
        decide (n.description ∉
          ((existing.filter (markB filePath
            (newReminders.map (·.description)))).map (·.description)))) := by
  simp only [MergeFromFile]
  rw [mergeFold_eq]
  simp

/-- C1: every existing reminder whose SourceFile equals the merged origin
and whose Status is Acknowledged appears unchanged (the very same record,
hence same when, description, tags, origin, originLine and status) in the
output of `MergeFromFile`, with no assumption on the freshly parsed
batch. -/
theorem mergeFromFile_keeps_acknowledged (existing : List Reminder)
    (filePath : GoStr) (newReminders : List Reminder) (r : Reminder)
    (hmem : r ∈ existing) (_hsrc : r.sourceFile = filePath)
    (hack : r.status = Status.acknowledged) :
    r ∈ MergeFromFile existing filePath newReminders := by
  rw [MergeFromFile_eq]
  refine List.mem_append.mpr (Or.inl ?_)
  refine List.mem_filter.mpr ⟨hmem, ?_⟩
  simp [keepB, hack]

theorem mergeFromFile_keeps_acknowledged_witness :
    (⟨0, ['a'], [], ['f'], 1, Status.acknowledged⟩ : Reminder) ∈
      MergeFromFile [⟨0, ['a'], [], ['f'], 1, Status.acknowledged⟩]
        ['f'] [⟨7, ['b'], [], ['f'], 2, Status.pending⟩] :=
  mergeFromFile_keeps_acknowledged _ _ _ _ (by simp) rfl rfl

/-- C2: under `MergeFromFile`, an existing Pending or Triggered reminder
from the merged origin is in the output (the same record, so its old when
and status survive) iff some freshly parsed reminder has an identical
description; and every freshly parsed reminder whose description matches no
existing entry of that origin is appended to the output, as a Pending
reminder (freshly parsed reminders are Pending). -/
theorem mergeFromFile_pending_triggered_iff
    (existing newReminders : List Reminder) (filePath : GoStr)
    (hfresh : ∀ n ∈ newReminders, n.status = Status.pending) :
    (∀ r ∈ existing, r.sourceFile = filePath →
       (r.status = Status.pending ∨ r.status = Status.triggered) →
       (r ∈ MergeFromFile existing filePath newReminders ↔
         ∃ n ∈ newReminders, n.description = r.description)) ∧
    (∀ n ∈ newReminders,
       (¬ ∃ x ∈ existing, x.sourceFile = filePath ∧
           x.description = n.description) →
       n ∈ MergeFromFile existing filePath newReminders ∧
         n.status = Status.pending) := by
  constructor
  · intro r hr hsrc hstat
    have hnack : r.status ≠ Status.acknowledged := by
      rcases hstat with h | h <;> simp [h]
    rw [MergeFromFile_eq]
    constructor
    · intro hout
      rcases List.mem_append.mp hout with hl | hr2
      · have := (List.mem_filter.mp hl).2
        simp only [keepB, decide_eq_true_eq] at this
        rcases this with h | h | h
        · exact absurd hsrc h
        · exact absurd h hnack
        · rcases List.mem_map.mp h with ⟨n, hn, heq⟩
          exact ⟨n, hn, heq⟩
      · have hrn := List.mem_filter.mp hr2
        exact ⟨r, hrn.1, rfl⟩
    · intro ⟨n, hn, hdesc⟩
      refine List.mem_append.mpr (Or.inl (List.mem_filter.mpr ⟨hr, ?_⟩))
      simp only [keepB, decide_eq_true_eq]
      exact Or.inr (Or.inr (List.mem_map.mpr ⟨n, hn, hdesc⟩))
  · intro n hn hnomatch
    refine ⟨?_, hfresh n hn⟩
    rw [MergeFromFile_eq]
    refine List.mem_append.mpr (Or.inr (List.mem_filter.mpr ⟨hn, ?_⟩))
    simp only [decide_eq_true_eq]
    intro hmem
    rcases List.mem_map.mp hmem with ⟨x, hx, hxd⟩
    have hxe := List.mem_filter.mp hx
    have := hxe.2
    simp only [markB, decide_eq_true_eq] at this
    exact hnomatch ⟨x, hxe.1, this.1, hxd⟩

theorem mergeFromFile_pending_triggered_iff_witness :
    (⟨5, ['a'], [], ['f'], 1, Status.triggered⟩ : Reminder) ∈
      MergeFromFile [⟨5, ['a'], [], ['f'], 1, Status.triggered⟩] ['f']
        [⟨9, ['a'], [], ['f'], 2, Status.pending⟩] :=
  ((mergeFromFile_pending_triggered_iff
      [⟨5, ['a'], [], ['f'], 1, Status.triggered⟩]
      [⟨9, ['a'], [], ['f'], 2, Status.pending⟩] ['f']
      (by intro n hn; simp at hn; simp [hn])).1
    ⟨5, ['a'], [], ['f'], 1, Status.triggered⟩ (by simp) rfl
    (Or.inr rfl)).mpr
    ⟨⟨9, ['a'], [], ['f'], 2, Status.pending⟩, by simp, rfl⟩

/-- C10: when the freshly parsed batch holds two or more reminders with the
same description `d`: if the existing collection holds a non-Acknowledged
reminder of that origin with description `d`, that reminder survives and
the number of `(origin, d)` reminders does not grow (every fresh duplicate
is discarded); if no existing reminder of that origin has description `d`,
the output holds exactly as many `(origin, d)` reminders as the fresh
batch, so duplicates can coexist in the output. -/
theorem mergeFromFile_duplicate_descriptions
    (existing newReminders : List Reminder) (filePath : GoStr) (d : GoStr)
    (hO : ∀ n ∈ newReminders, n.sourceFile = filePath)
    (hdup : 2 ≤ newReminders.countP (fun n => decide (n.description = d))) :
    (∀ e ∈ existing, e.sourceFile = filePath → e.description = d →
       e.status ≠ Status.acknowledged →
       e ∈ MergeFromFile existing filePath newReminders ∧
         (MergeFromFile existing filePath newReminders).countP
             (fun x => decide (x.sourceFile = filePath ∧ x.description = d))
           = existing.countP
             (fun x => decide (x.sourceFile = filePath ∧ x.description = d)))
    ∧
    ((∀ x ∈ existing, x.sourceFile = filePath → x.description ≠ d) →
       (MergeFromFile existing filePath newReminders).countP
           (fun x => decide (x.sourceFile = filePath ∧ x.description = d))
         = newReminders.countP (fun n => decide (n.description = d))) := by
  have hd : ∃ n ∈ newReminders, n.description = d := by
    have : 0 < newReminders.countP (fun n => decide (n.description = d)) := by
      omega
    rcases List.countP_pos_iff.mp this with ⟨n, hn, hnd⟩
    exact ⟨n, hn, by simpa using hnd⟩
  rcases hd with ⟨n0, hn0, hn0d⟩
  have hdD : d ∈ newReminders.map (·.description) :=
    List.mem_map.mpr ⟨n0, hn0, hn0d⟩
  constructor
  · intro e he hesrc hed henack
    have hkeep : keepB filePath (newReminders.map (·.description)) e = true := by
      simp only [keepB, decide_eq_true_eq]
      exact Or.inr (Or.inr (hed ▸ hdD))
    refine ⟨?_, ?_⟩
    · rw [MergeFromFile_eq]
      exact List.mem_append.mpr (Or.inl (List.mem_filter.mpr ⟨he, hkeep⟩))
    · rw [MergeFromFile_eq, List.countP_append]
      have hnew : (newReminders.filter (fun n =>
          decide (n.description ∉
            ((existing.filter (markB filePath
              (newReminders.map (·.description)))).map
                (·.description))))).countP
          (fun x => decide (x.sourceFile = filePath ∧ x.description = d))
          = 0 := by
        rw [List.countP_eq_zero]
        intro x hx
        simp only [decide_eq_true_eq]
        rintro ⟨-, hxd⟩
        have hxf := (List.mem_filter.mp hx).2
        simp only [decide_eq_true_eq] at hxf
        apply hxf
        rw [hxd]
        refine List.mem_map.mpr ⟨e, List.mem_filter.mpr ⟨he, ?_⟩, hed⟩
        simp only [markB, decide_eq_true_eq]
        exact ⟨hesrc, Or.inr (hed ▸ hdD)⟩
      rw [hnew, Nat.add_zero, List.countP_filter]
      refine List.countP_congr ?_
      intro x hx
      simp only [Bool.and_eq_true, decide_eq_true_eq, keepB,
        decide_eq_true_eq]
      constructor
      · rintro ⟨⟨h1, h2⟩, -⟩; exact ⟨h1, h2⟩
      · rintro ⟨h1, h2⟩
        exact ⟨⟨h1, h2⟩, Or.inr (Or.inr (h2 ▸ hdD))⟩
  · intro hnone
    rw [MergeFromFile_eq, List.countP_append]
    have hdnotm : d ∉ ((existing.filter (markB filePath
        (newReminders.map (·.description)))).map (·.description)) := by
      intro hmem
      rcases List.mem_map.mp hmem with ⟨x, hx, hxd⟩
      have hxe := List.mem_filter.mp hx
      have hxm := hxe.2
      simp only [markB, decide_eq_true_eq] at hxm
      exact hnone x hxe.1 hxm.1 hxd
    have hold : (existing.filter (keepB filePath
        (newReminders.map (·.description)))).countP
        (fun x => decide (x.sourceFile = filePath ∧ x.description = d))
        = 0 := by
      rw [List.countP_eq_zero]
      intro x hx
      simp only [decide_eq_true_eq]
      rintro ⟨h1, h2⟩
      exact hnone x (List.mem_filter.mp hx).1 h1 h2
    rw [hold, Nat.zero_add, List.countP_filter]
    refine List.countP_congr ?_
    intro x hx
    simp only [Bool.and_eq_true, decide_eq_true_eq]
    constructor
    · rintro ⟨⟨-, h2⟩, -⟩; exact h2
    · intro h2
      exact ⟨⟨hO x hx, h2⟩, by rw [h2]; exact hdnotm⟩

theorem mergeFromFile_duplicate_descriptions_witness :
    ((MergeFromFile [] ['f']
        [⟨1, ['a'], [], ['f'], 1, Status.pending⟩,
         ⟨2, ['a'], [], ['f'], 2, Status.pending⟩]).countP
      (fun x => decide (x.sourceFile = ['f'] ∧ x.description = ['a']))) = 2 :=
  (mergeFromFile_duplicate_descriptions []
      [⟨1, ['a'], [], ['f'], 1, Status.pending⟩,
       ⟨2, ['a'], [], ['f'], 2, Status.pending⟩] ['f'] ['a']
      (by intro n hn; simp at hn; rcases hn with h | h <;> simp [h])
      (by simp)).2
    (by simp)

/-! ### C3: the scheduler tick -/

/-- Helper for the idempotence of the tick scan. -/
theorem tick1_idem (now : GoTime) (r : Reminder) :
    tick1 now (tick1 now r) = tick1 now r := by
  unfold tick1
  by_cases h : r.status = Status.pending ∧ r.dateTime < now
  · simp [h]
  · simp [h]

/-- C3 counterexample: a Pending reminder whose `when` equals the current
instant (so `when` is "at or before" now) is NOT triggered by the tick scan
— `now.After(when)` is strict, so the reminder stays Pending. -/
theorem tick_boundary_counterexample :
    (tickScan 5 [⟨5, ['x'], [], ['f'], 1, Status.pending⟩]).map (·.status)
        = [Status.pending] ∧
    (5 : Int) ≤ 5 ∧ Status.pending ≠ Status.triggered := by
  refine ⟨?_, le_refl 5, by simp⟩
  simp [tickScan, tick1]

/-- C3 amended: on a tick at instant `now`, every Pending reminder whose
`when` is strictly before `now` becomes Triggered; no other field of any
reminder changes; non-Pending reminders (Triggered or Acknowledged) are
left untouched; and the scan is idempotent. -/
theorem tick_scan_amended (now : GoTime) (r : Reminder) :
    (r.status = Status.pending → r.dateTime < now →
      tick1 now r = { r with status := Status.triggered }) ∧
    ((tick1 now r).dateTime = r.dateTime ∧
      (tick1 now r).description = r.description ∧
      (tick1 now r).tags = r.tags ∧
      (tick1 now r).sourceFile = r.sourceFile ∧
      (tick1 now r).lineNumber = r.lineNumber) ∧
    (r.status ≠ Status.pending → tick1 now r = r) ∧
    (∀ rs : List Reminder, tickScan now rs = rs.map (tick1 now)) ∧
    (∀ rs : List Reminder,
      tickScan now (tickScan now rs) = tickScan now rs) := by
  refine ⟨fun h1 h2 => by simp [tick1, h1, h2], ?_, fun h => by simp [tick1, h],
    fun rs => rfl, fun rs => ?_⟩
  · unfold tick1
    split <;> simp
  · unfold tickScan
    rw [List.map_map]
    exact List.map_congr_left fun r _ => tick1_idem now r

theorem tick_scan_amended_witness :
    tick1 1 (⟨0, ['x'], [], ['f'], 1, Status.pending⟩ : Reminder) =
      ⟨0, ['x'], [], ['f'], 1, Status.triggered⟩ :=
  (tick_scan_amended 1 ⟨0, ['x'], [], ['f'], 1, Status.pending⟩).1 rfl
    (by decide)

/-! ### C4: the edit action -/

/-- What a successful pass of the `updateReminder` prefix loop produces:
some split of the words resolves to the new time, the description is the
remainder, and the status is recomputed from the new time against `now`
(`now.After(t)`, i.e. `t < now`, with the boundary `t = now` falling in the
else branch). -/
theorem updLoop_some (r : Reminder) (words : List GoStr) (now : GoTime)
    (k : Nat) (r' : Reminder) (h : updLoop r words now k = some r') :
    ∃ j, 1 ≤ j ∧ j ≤ k ∧
      Parse (joinSpace (words.take j)) now = some r'.dateTime ∧
      r'.description = joinSpace (words.drop j) ∧
      r'.tags = r.tags ∧ r'.sourceFile = r.sourceFile ∧
      r'.lineNumber = r.lineNumber ∧
      r'.status =
        (if r'.dateTime < now then
          (if r.status ≠ Status.acknowledged then Status.triggered
           else r.status)
         else
          (if r.status = Status.triggered then Status.pending
           else r.status)) := by
  induction k with
  | zero => simp [updLoop] at h
  | succ k ih =>
    rw [updLoop] at h
    rcases hp : Parse (joinSpace (words.take (k + 1))) now with _ | t
    · rw [hp] at h
      rcases ih h with ⟨j, hj1, hj2, rest⟩
      exact ⟨j, hj1, Nat.le_succ_of_le hj2, rest⟩
    · rw [hp] at h
      simp only [Option.some.injEq] at h
      subst h
      refine ⟨k + 1, Nat.succ_le_succ (Nat.zero_le k), Nat.le_refl _,
        by simpa using hp, rfl, rfl, rfl, rfl, ?_⟩
      by_cases hlt : t < now
      · by_cases hack : r.status = Status.acknowledged <;>
          simp [hlt, hack]
      · by_cases htr : r.status = Status.triggered <;>
          simp [hlt, htr]

/-- C4 counterexample: editing a Triggered reminder to the exact current
instant (`+0s`, so the new time T equals now, neither strictly past nor
strictly future) reverts its status to Pending, where the claim as stated
("any other status is unchanged") requires it to stay Triggered. -/
theorem updateReminder_boundary_counterexample :
    (updateReminder ⟨0, ['o'], [], ['f'], 1, Status.triggered⟩
        ("+0s x").toList 5).map (·.dateTime) = some 5 ∧
    (updateReminder ⟨0, ['o'], [], ['f'], 1, Status.triggered⟩
        ("+0s x").toList 5).map (·.status) = some Status.pending ∧
    Status.pending ≠ Status.triggered := by
  refine ⟨by decide, by decide, by simp⟩

/-- C4 amended: when an edit input parses (some datetime prefix of the
words resolves to the new time T = the updated `when`): if T is strictly
before now the status becomes Triggered unless it was Acknowledged (which
is kept); if T is at or after now (the boundary T = now included) a
Triggered status reverts to Pending and any other status is unchanged. -/
theorem updateReminder_amended (r : Reminder) (input : GoStr) (now : GoTime)
    (r' : Reminder) (h : updateReminder r input now = some r') :
    (∃ j, 1 ≤ j ∧ j < (fields (goTrim input)).length ∧
       Parse (joinSpace ((fields (goTrim input)).take j)) now
         = some r'.dateTime) ∧
    (r'.dateTime < now → r.status ≠ Status.acknowledged →
       r'.status = Status.triggered) ∧
    (r'.dateTime < now → r.status = Status.acknowledged →
       r'.status = Status.acknowledged) ∧
    (now ≤ r'.dateTime → r.status = Status.triggered →
       r'.status = Status.pending) ∧
    (now ≤ r'.dateTime → r.status ≠ Status.triggered →
       r'.status = r.status) := by
  simp only [updateReminder] at h
  split_ifs at h with h1 h2
  have hlen : 2 ≤ (fields (goTrim input)).length := Nat.le_of_not_lt h2
  rcases updLoop_some r (fields (goTrim input)) now
      ((fields (goTrim input)).length - 1) r' h with
    ⟨j, hj1, hj2, hparse, hdesc, htags, hsrc2, hline, hstat⟩
  refine ⟨⟨j, hj1, by omega, hparse⟩, ?_, ?_, ?_, ?_⟩
  · intro hlt hnack
    rw [hstat]
    simp [hlt, hnack]
  · intro hlt hack
    rw [hstat]
    simp [hlt, hack]
  · intro hge htr
    rw [hstat]
    simp [Int.not_lt.mpr hge, htr]
  · intro hge hntr
    rw [hstat]
    simp [Int.not_lt.mpr hge, hntr]

theorem updateReminder_amended_witness :
    ∃ j, 1 ≤ j ∧ j < (fields (goTrim ("+1h x").toList)).length ∧
      Parse (joinSpace ((fields (goTrim ("+1h x").toList)).take j)) 0
        = some (3600000000000 : Int) :=
  (updateReminder_amended ⟨0, ['o'], [], ['f'], 1, Status.triggered⟩
    (("+1h x").toList) 0
    ⟨3600000000000, ['x'], [], ['f'], 1, Status.pending⟩ (by decide)).1

/-! ### Facts about Fields / TrimSpace / Join -/

theorem fieldsAux_spaces (t : GoStr) (ht : ∀ c ∈ t, isSpaceGo c = true)
    (acc : GoStr) :
    fieldsAux t acc = if acc = [] then [] else [acc.reverse] := by
  induction t generalizing acc with
  | nil => rfl
  | cons c cs ih =>
    have hc : isSpaceGo c = true := ht c (List.mem_cons_self c cs)
    have ht2 : ∀ x ∈ cs, isSpaceGo x = true :=
      fun x hx => ht x (List.mem_cons_of_mem _ hx)
    by_cases ha : acc = []
    · simp [fieldsAux, hc, ha, ih ht2]
    · simp [fieldsAux, hc, ha, ih ht2]

theorem fieldsAux_append_spaces (s t : GoStr)
    (ht : ∀ c ∈ t, isSpaceGo c = true) (acc : GoStr) :
    fieldsAux (s ++ t) acc = fieldsAux s acc := by
  induction s generalizing acc with
  | nil =>
    rw [List.nil_append, fieldsAux_spaces t ht acc]
    rfl
  | cons c cs ih =>
    by_cases hc : isSpaceGo c
    · by_cases ha : acc = [] <;> simp [fieldsAux, hc, ha, ih]
    · simp [fieldsAux, hc, ih]

theorem fields_dropWhile_spaces (s : GoStr) :
    fields (s.dropWhile isSpaceGo) = fields s := by
  induction s with
  | nil => rfl
  | cons c cs ih =>
    by_cases hc : isSpaceGo c
    · rw [List.dropWhile_cons_of_pos hc, ih]
      simp [fields, fieldsAux, hc]
    · rw [List.dropWhile_cons_of_neg hc]

theorem fields_goTrim (s : GoStr) : fields (goTrim s) = fields s := by
  have h1 : fields (s.dropWhile isSpaceGo) = fields s :=
    fields_dropWhile_spaces s
  have hsplit : s.dropWhile isSpaceGo =
      goTrim s ++
        (((s.dropWhile isSpaceGo).reverse.takeWhile isSpaceGo)).reverse := by
    unfold goTrim
    conv_lhs => rw [← List.reverse_reverse (s.dropWhile isSpaceGo)]
    conv_lhs =>
      rw [← List.takeWhile_append_dropWhile (p := isSpaceGo)
        (l := (s.dropWhile isSpaceGo).reverse)]
    rw [List.reverse_append]
  have htw : ∀ c ∈ ((s.dropWhile isSpaceGo).reverse.takeWhile
      isSpaceGo).reverse, isSpaceGo c = true := by
    intro c hc
    rw [List.mem_reverse] at hc
    exact List.mem_takeWhile_imp hc
  have h2 := fieldsAux_append_spaces (goTrim s) _ htw ([] : GoStr)
  calc fields (goTrim s) = fields (s.dropWhile isSpaceGo) := by
        rw [hsplit]
        exact h2.symm
    _ = fields s := h1

theorem fieldsAux_words (s : GoStr) :
    ∀ acc, (∀ c ∈ acc, isSpaceGo c = false) →
      ∀ w ∈ fieldsAux s acc, w ≠ [] ∧ ∀ c ∈ w, isSpaceGo c = false := by
  induction s with
  | nil =>
    intro acc hacc w hw
    by_cases ha : acc = []
    · simp [fieldsAux, ha] at hw
    · simp only [fieldsAux, ha, if_false, List.mem_singleton] at hw
      subst hw
      refine ⟨by simpa using ha, ?_⟩
      intro c hc
      exact hacc c (List.mem_reverse.mp hc)
  | cons c cs ih =>
    intro acc hacc w hw
    by_cases hc : isSpaceGo c
    · by_cases ha : acc = []
      · rw [show fieldsAux (c :: cs) acc = fieldsAux cs [] by
          simp [fieldsAux, hc, ha]] at hw
        exact ih [] (by simp) w hw
      · rw [show fieldsAux (c :: cs) acc = acc.reverse :: fieldsAux cs []
            by simp [fieldsAux, hc, ha]] at hw
        rcases List.mem_cons.mp hw with h | h
        · subst h
          refine ⟨by simpa using ha, ?_⟩
          intro x hx
          exact hacc x (List.mem_reverse.mp hx)
        · exact ih [] (by simp) w h
    · rw [show fieldsAux (c :: cs) acc = fieldsAux cs (c :: acc) by
        simp [fieldsAux, hc]] at hw
      refine ih (c :: acc) ?_ w hw
      intro x hx
      rcases List.mem_cons.mp hx with h | h
      · subst h
        simpa using hc
      · exact hacc x h

theorem fields_words (s : GoStr) (w : GoStr) (hw : w ∈ fields s) :
    w ≠ [] ∧ ∀ c ∈ w, isSpaceGo c = false :=
  fieldsAux_words s [] (by simp) w hw

theorem fieldsAux_accum :
    ∀ (w v acc : GoStr), (∀ c ∈ w, isSpaceGo c = false) →
      fieldsAux (w ++ v) acc = fieldsAux v (w.reverse ++ acc)
  | [], v, acc, _ => by simp
  | c :: cs, v, acc, hw => by
    have hc : isSpaceGo c = false := hw c (List.mem_cons_self c cs)
    have ih := fieldsAux_accum cs v (c :: acc)
      (fun x hx => hw x (List.mem_cons_of_mem _ hx))
    rw [List.cons_append,
      show fieldsAux (c :: (cs ++ v)) acc = fieldsAux (cs ++ v) (c :: acc)
        by simp [fieldsAux, hc],
      ih]
    simp

theorem fields_joinSpace :
    ∀ ws : List GoStr,
      (∀ w ∈ ws, w ≠ [] ∧ ∀ c ∈ w, isSpaceGo c = false) →
      fields (joinSpace ws) = ws
  | [], _ => rfl
  | [w], h => by
    have hw := h w (List.mem_singleton.mpr rfl)
    show fields w = [w]
    calc fields w = fieldsAux (w ++ []) [] := by rw [List.append_nil]; rfl
      _ = fieldsAux [] (w.reverse ++ []) := fieldsAux_accum w [] [] hw.2
      _ = [w] := by simp [fieldsAux, hw.1]
  | w :: w2 :: ws, h => by
    have hw := h w (List.mem_cons_self _ _)
    have ih := fields_joinSpace (w2 :: ws)
      (fun x hx => h x (List.mem_cons_of_mem _ hx))
    show fields (w ++ ' ' :: joinSpace (w2 :: ws)) = w :: w2 :: ws
    calc fields (w ++ ' ' :: joinSpace (w2 :: ws))
        = fieldsAux (' ' :: joinSpace (w2 :: ws)) (w.reverse ++ []) :=
          fieldsAux_accum w _ [] hw.2
      _ = w :: fieldsAux (joinSpace (w2 :: ws)) [] := by
          rw [show fieldsAux (' ' :: joinSpace (w2 :: ws)) (w.reverse ++ [])
              = (w.reverse ++ []).reverse ::
                fieldsAux (joinSpace (w2 :: ws)) [] by
            simp [fieldsAux, hw.1, (by decide : isSpaceGo ' ' = true)]]
          simp
      _ = w :: w2 :: ws := by
          rw [show fieldsAux (joinSpace (w2 :: ws)) [] =
            fields (joinSpace (w2 :: ws)) from rfl, ih]

theorem joinSpace_ne_nil (w : GoStr) (ws : List GoStr) (hw : w ≠ []) :
    joinSpace (w :: ws) ≠ [] := by
  cases ws with
  | nil => simpa [joinSpace] using hw
  | cons w2 ws2 =>
    show w ++ ' ' :: joinSpace (w2 :: ws2) ≠ []
    simp

/-! ### Facts about the tag scanner -/

theorem tagScanF_no_tags :
    ∀ (fuel : Nat) (s : GoStr),
      (tagScanF fuel s).2 = [] → (tagScanF fuel s).1 = s := by
  intro fuel
  induction fuel with
  | zero => intro s _; rfl
  | succ fuel ih =>
    intro s h
    match s with
    | [] => rfl
    | c :: cs =>
      by_cases h1 : isSpaceRe c ∧ cs.head? = some '#'
      · by_cases h2 : cs.tail.takeWhile isWordCh = []
        · have e : tagScanF (fuel + 1) (c :: cs) =
              (c :: (tagScanF fuel cs).1, (tagScanF fuel cs).2) := by
            simp only [tagScanF, if_pos h1, if_pos h2]
          rw [e] at h ⊢
          rw [ih cs h]
        · have e : tagScanF (fuel + 1) (c :: cs) =
              ((tagScanF fuel (cs.tail.dropWhile isWordCh)).1,
               cs.tail.takeWhile isWordCh ::
                 (tagScanF fuel (cs.tail.dropWhile isWordCh)).2) := by
            simp only [tagScanF, if_pos h1, if_neg h2]
          rw [e] at h
          simp at h
      · have e : tagScanF (fuel + 1) (c :: cs) =
            (c :: (tagScanF fuel cs).1, (tagScanF fuel cs).2) := by
          simp only [tagScanF, if_neg h1]
        rw [e] at h ⊢
        rw [ih cs h]

theorem tagScanTop_no_tags (s : GoStr) (h : (tagScanTop s).2 = []) :
    (tagScanTop s).1 = s := by
  unfold tagScanTop at h ⊢
  by_cases h1 : s.head? = some '#'
  · by_cases h2 : s.tail.takeWhile isWordCh = []
    · rw [if_pos h1] at h ⊢
      simp only [if_pos h2] at h ⊢
      exact tagScanF_no_tags s.length s h
    · rw [if_pos h1] at h
      simp only [if_neg h2] at h
      simp at h
  · rw [if_neg h1] at h ⊢
    exact tagScanF_no_tags s.length s h

theorem tagScanF_tags_wf :
    ∀ (fuel : Nat) (s : GoStr) (w : GoStr), w ∈ (tagScanF fuel s).2 →
      w ≠ [] ∧ ∀ c ∈ w, isWordCh c = true := by
  intro fuel
  induction fuel with
  | zero => intro s w hw; simp [tagScanF] at hw
  | succ fuel ih =>
    intro s w hw
    match s with
    | [] => simp [tagScanF] at hw
    | c :: cs =>
      by_cases h1 : isSpaceRe c ∧ cs.head? = some '#'
      · by_cases h2 : cs.tail.takeWhile isWordCh = []
        · rw [show tagScanF (fuel + 1) (c :: cs) =
              (c :: (tagScanF fuel cs).1, (tagScanF fuel cs).2) by
            simp only [tagScanF, if_pos h1, if_pos h2]] at hw
          exact ih cs w hw
        · rw [show tagScanF (fuel + 1) (c :: cs) =
              ((tagScanF fuel (cs.tail.dropWhile isWordCh)).1,
               cs.tail.takeWhile isWordCh ::
                 (tagScanF fuel (cs.tail.dropWhile isWordCh)).2) by
            simp only [tagScanF, if_pos h1, if_neg h2]] at hw
          rcases List.mem_cons.mp hw with h | h
          · subst h
            exact ⟨h2, fun c hc => List.mem_takeWhile_imp hc⟩
          · exact ih _ w h
      · rw [show tagScanF (fuel + 1) (c :: cs) =
            (c :: (tagScanF fuel cs).1, (tagScanF fuel cs).2) by
          simp only [tagScanF, if_neg h1]] at hw
        exact ih cs w hw

theorem tagScanTop_tags_wf (s : GoStr) (w : GoStr)
    (hw : w ∈ (tagScanTop s).2) :
    w ≠ [] ∧ ∀ c ∈ w, isWordCh c = true := by
  unfold tagScanTop at hw
  by_cases h1 : s.head? = some '#'
  · by_cases h2 : s.tail.takeWhile isWordCh = []
    · rw [if_pos h1] at hw
      simp only [if_pos h2] at hw
      exact tagScanF_tags_wf s.length s w hw
    · rw [if_pos h1] at hw
      simp only [if_neg h2] at hw
      rcases List.mem_cons.mp hw with h | h
      · subst h
        exact ⟨h2, fun c hc => List.mem_takeWhile_imp hc⟩
      · exact tagScanF_tags_wf (s.tail.dropWhile isWordCh).length _ w h
  · rw [if_neg h1] at hw
    exact tagScanF_tags_wf s.length s w hw

/-! ### C9: shape of extracted tags -/

/-- C9 counterexample: `ExtractTags "#A#b"` yields the tag `A`, which is
not lowercase, and its cleaned text `#b` still contains a tag token (a `#`
at start-of-string followed by word characters): removing the first match
exposed a new one, so extraction is not total on the cleaned text. -/
theorem extractTags_case_counterexample :
    (ExtractTags ("#A#b").toList).2 = [['A']] ∧
    goToLower ['A'] ≠ ['A'] ∧
    (ExtractTags ("#A#b").toList).1 = ['#', 'b'] ∧
    (ExtractTags ((ExtractTags ("#A#b").toList).1)).2 = [['b']] := by
  refine ⟨by decide, by decide, by decide, by decide⟩

/-- C9 amended: every tag returned by `ExtractTags` is a non-empty token of
word characters (letters of either case, digits or underscore — not
necessarily lowercase) and never contains the `#` marker; the matched
tokens themselves are removed from the cleaned text, but removing a match
can expose a new `#` token in the cleaned text. -/
theorem extractTags_tag_shape (text : GoStr) (tg : GoStr)
    (h : tg ∈ (ExtractTags text).2) :
    tg ≠ [] ∧ (∀ c ∈ tg, isWordCh c = true) ∧ '#' ∉ tg := by
  have hw := tagScanTop_tags_wf text tg h
  refine ⟨hw.1, hw.2, fun hm => ?_⟩
  exact absurd (hw.2 '#' hm) (by decide)

theorem extractTags_tag_shape_witness :
    (['w', 'o', 'r', 'k'] : GoStr) ≠ [] ∧
    (∀ c ∈ (['w', 'o', 'r', 'k'] : GoStr), isWordCh c = true) ∧
    '#' ∉ (['w', 'o', 'r', 'k'] : GoStr) :=
  extractTags_tag_shape ("do #work now").toList ['w', 'o', 'r', 'k']
    (by decide)

/-! ### C7: idempotence of ExtractTags -/

/-- C7 counterexample: on `"#a#b"` the first extraction returns cleaned
text `"#b"` (removing `#a` exposed `#b` at the start), and a second
extraction reduces it further, to the empty string: `ExtractTags` is not
idempotent on its cleaned text. -/
theorem extractTags_idem_counterexample :
    (ExtractTags ("#a#b").toList).1 = ['#', 'b'] ∧
    (ExtractTags ((ExtractTags ("#a#b").toList).1)).1 = [] ∧
    (['#', 'b'] : GoStr) ≠ [] := by
  refine ⟨by decide, by decide, by decide⟩

/-- C7 amended: re-extraction fixes the cleaned text as soon as it finds no
further tag token in it — when the second pass returns no tags (the only
failure mode is a `#` token newly exposed by the first removal), its
cleaned text equals the first pass's cleaned text verbatim (in particular
white-space collapsing and trimming are idempotent). -/
theorem extractTags_second_pass (text : GoStr)
    (h : (ExtractTags ((ExtractTags text).1)).2 = []) :
    (ExtractTags ((ExtractTags text).1)).1 = (ExtractTags text).1 := by
  have hid : (tagScanTop ((ExtractTags text).1)).1 = (ExtractTags text).1 :=
    tagScanTop_no_tags _ h
  show joinSpace (fields (goTrim ((tagScanTop ((ExtractTags text).1)).1)))
      = (ExtractTags text).1
  rw [hid, fields_goTrim]
  show joinSpace (fields (joinSpace (fields (goTrim (tagScanTop text).1))))
      = joinSpace (fields (goTrim (tagScanTop text).1))
  rw [fields_joinSpace (fields (goTrim (tagScanTop text).1))
    (fun w hw => fields_words _ w hw)]

theorem extractTags_second_pass_witness :
    (ExtractTags ((ExtractTags ("go #work now").toList).1)).1
      = (ExtractTags ("go #work now").toList).1 :=
  extractTags_second_pass ("go #work now").toList (by decide)

/-! ### C8: parsed reminders and empty descriptions -/

/-- What a successful pass of the `parseReminderContent` prefix loop
produces. -/
theorem prcLoop_some (words : List GoStr) (R : GoTime) (k : Nat)
    (r : Reminder) (h : prcLoop words R k = some r) :
    ∃ j, 1 ≤ j ∧ j ≤ k ∧
      r.description = (ExtractTags (joinSpace (words.drop j))).1 ∧
      r.tags = (ExtractTags (joinSpace (words.drop j))).2 ∧
      r.status = Status.pending := by
  induction k with
  | zero => simp [prcLoop] at h
  | succ k ih =>
    rw [prcLoop] at h
    rcases hp : Parse (joinSpace (words.take (k + 1))) R with _ | t
    · rw [hp] at h
      rcases ih h with ⟨j, h1, h2, rest⟩
      exact ⟨j, h1, Nat.le_succ_of_le h2, rest⟩
    · rw [hp] at h
      simp only [Option.some.injEq] at h
      subst h
      exact ⟨k + 1, Nat.succ_le_succ (Nat.zero_le k), Nat.le_refl _,
        rfl, rfl, rfl⟩

/-- C8 counterexample: the reminder content `"+1h #work"` parses (the
parser returns it), yet its description is empty — the description part
consisted solely of a tag token, which extraction removed. -/
theorem parseReminderContent_empty_desc_counterexample :
    (parseReminderContent ("+1h #work").toList 0).map
        (fun r => r.description) = some [] ∧
    (parseReminderContent ("+1h #work").toList 0).isSome = true := by
  exact ⟨by decide, by decide⟩

/-- C8 amended: every reminder returned by `parseReminderContent` has a
non-empty description or a non-empty tag list; the description is empty
exactly when the description words consisted solely of tag tokens, in
which case at least one tag was extracted. -/
theorem parseReminderContent_desc_or_tags (content : GoStr) (R : GoTime)
    (r : Reminder) (h : parseReminderContent content R = some r) :
    r.description ≠ [] ∨ r.tags ≠ [] := by
  simp only [parseReminderContent] at h
  split_ifs at h with h1
  rcases prcLoop_some (fields content) R _ r h with
    ⟨j, hj1, hj2, hdesc, htags, -⟩
  by_cases hd : r.description = []
  · right
    have hlen : 2 ≤ (fields content).length := Nat.le_of_not_lt h1
    have hwsne : (fields content).drop j ≠ [] := by
      intro hnil
      have := List.drop_eq_nil_iff.mp hnil
      omega
    have hwf : ∀ w ∈ (fields content).drop j,
        w ≠ [] ∧ ∀ c ∈ w, isSpaceGo c = false :=
      fun w hw => fields_words content w (List.mem_of_mem_drop hw)
    rw [htags]
    intro htn
    have hscan : (tagScanTop (joinSpace ((fields content).drop j))).1
        = joinSpace ((fields content).drop j) :=
      tagScanTop_no_tags _ htn
    have hcl : (ExtractTags (joinSpace ((fields content).drop j))).1
        = joinSpace ((fields content).drop j) := by
      show joinSpace (fields (goTrim
        ((tagScanTop (joinSpace ((fields content).drop j))).1))) = _
      rw [hscan, fields_goTrim,
        fields_joinSpace ((fields content).drop j) hwf]
    rw [hdesc, hcl] at hd
    rcases hws : (fields content).drop j with _ | ⟨w, ws2⟩
    · exact hwsne hws
    · rw [hws] at hd
      exact joinSpace_ne_nil w ws2
        (hwf w (by rw [hws]; exact List.mem_cons_self _ _)).1 hd
  · exact Or.inl hd

theorem parseReminderContent_desc_or_tags_witness :
    (⟨3600000000000, [], [['w', 'o', 'r', 'k']], [], 0,
        Status.pending⟩ : Reminder).description ≠ [] ∨
    (⟨3600000000000, [], [['w', 'o', 'r', 'k']], [], 0,
        Status.pending⟩ : Reminder).tags ≠ [] :=
  parseReminderContent_desc_or_tags ("+1h #work").toList 0 _ (by decide)

/-! ### C5: relative phrases -/

theorem digitsVal_foldl_nonneg :
    ∀ (ds : GoStr) (a : Int), 0 ≤ a →
      (∀ c ∈ ds, isDigitCh c = true) →
      0 ≤ ds.foldl (fun a c => a * 10 + ((c.toNat : Int) - 48)) a := by
  intro ds
  induction ds with
  | nil => intro a ha _; exact ha
  | cons c cs ih =>
    intro a ha hd
    have hc : isDigitCh c = true := hd c (List.mem_cons_self _ _)
    have h48 : 48 ≤ c.toNat := by
      simp only [isDigitCh, decide_eq_true_eq] at hc
      exact hc.1
    rw [List.foldl_cons]
    refine ih _ ?_ (fun x hx => hd x (List.mem_cons_of_mem _ hx))
    have : (48 : Int) ≤ (c.toNat : Int) := by exact_mod_cast h48
    nlinarith

theorem digitsVal_nonneg (ds : GoStr)
    (hd : ∀ c ∈ ds, isDigitCh c = true) : 0 ≤ digitsVal ds :=
  digitsVal_foldl_nonneg ds 0 le_rfl hd

theorem goAtoi_digits (ds : GoStr) (hne : ds ≠ [])
    (hd : ∀ c ∈ ds, isDigitCh c = true) (hb : digitsVal ds ≤ maxInt64) :
    goAtoi ds = some (digitsVal ds) := by
  have hall : ds.all isDigitCh = true := List.all_eq_true.mpr hd
  simp [goAtoi, hne, hall, hb]

theorem wrap64_eq_self (x : Int) (h0 : 0 ≤ x) (h1 : x ≤ maxInt64) :
    wrap64 x = x := by
  unfold wrap64
  unfold maxInt64 at h1
  have : (x + 2 ^ 63) % 2 ^ 64 = x + 2 ^ 63 :=
    Int.emod_eq_of_lt (by omega) (by omega)
  omega

theorem relLoop_digits :
    ∀ (ds rest cur : GoStr) (res : GoTime),
      (∀ c ∈ ds, isDigitCh c = true) →
      relLoop (ds ++ rest) cur res = relLoop rest (cur ++ ds) res := by
  intro ds
  induction ds with
  | nil => intro rest cur res _; simp
  | cons c cs ih =>
    intro rest cur res hd
    have hc : isDigitCh c = true := hd c (List.mem_cons_self _ _)
    rw [List.cons_append,
      show relLoop (c :: (cs ++ rest)) cur res
        = relLoop (cs ++ rest) (cur ++ [c]) res by simp [relLoop, hc],
      ih rest (cur ++ [c]) res (fun x hx => hd x (List.mem_cons_of_mem _ hx))]
    simp

theorem unit_not_digit (u : Char)
    (hu : u = 'd' ∨ u = 'h' ∨ u = 'm' ∨ u = 's') : isDigitCh u = false := by
  rcases hu with h | h | h | h <;> subst h <;> decide

theorem unitNs_pos (u : Char)
    (hu : u = 'd' ∨ u = 'h' ∨ u = 'm' ∨ u = 's') : 1 ≤ unitNs u := by
  rcases hu with h | h | h | h <;> subst h <;> decide

theorem relLoop_group (ds : GoStr) (u : Char) (rest : GoStr) (res : GoTime)
    (hne : ds ≠ []) (hd : ∀ c ∈ ds, isDigitCh c = true)
    (hu : u = 'd' ∨ u = 'h' ∨ u = 'm' ∨ u = 's')
    (hb : digitsVal ds * unitNs u ≤ maxInt64) :
    relLoop (ds ++ u :: rest) [] res =
      relLoop rest [] (res + digitsVal ds * unitNs u) := by
  have h0 : 0 ≤ digitsVal ds := digitsVal_nonneg ds hd
  have hu1 : 1 ≤ unitNs u := unitNs_pos u hu
  have hmax : digitsVal ds ≤ maxInt64 := by nlinarith
  have hatoi := goAtoi_digits ds hne hd hmax
  have hnd := unit_not_digit u hu
  rw [relLoop_digits ds (u :: rest) [] res hd, List.nil_append]
  have hstep : relLoop (u :: rest) ds res =
      (if u = 'd' then
        relLoop rest [] (res + wrap64 (wrap64 (digitsVal ds * 24) * hourNs))
       else if u = 'h' then
        relLoop rest [] (res + wrap64 (digitsVal ds * hourNs))
       else if u = 'm' then
        relLoop rest [] (res + wrap64 (digitsVal ds * minuteNs))
       else if u = 's' then
        relLoop rest [] (res + wrap64 (digitsVal ds * secNs))
       else none) := by
    rw [relLoop, if_neg (by simp [hnd]), if_neg hne, hatoi]
  rw [hstep]
  rcases hu with h | h | h | h <;> subst h
  · rw [if_pos rfl]
    have e1 : wrap64 (digitsVal ds * 24) = digitsVal ds * 24 := by
      refine wrap64_eq_self _ (by positivity) ?_
      have h24 : (24 : Int) ≤ 86400000000000 := by norm_num
      have : digitsVal ds * 24 ≤ digitsVal ds * 86400000000000 :=
        mul_le_mul_of_nonneg_left h24 h0
      have hbd : digitsVal ds * 86400000000000 ≤ maxInt64 := by
        simpa [unitNs] using hb
      omega
    rw [e1]
    have e2 : wrap64 (digitsVal ds * 24 * hourNs) =
        digitsVal ds * 24 * hourNs := by
      refine wrap64_eq_self _ ?_ ?_
      · unfold hourNs; positivity
      · have : digitsVal ds * 24 * hourNs = digitsVal ds * 86400000000000 := by
          unfold hourNs; ring
        rw [this]
        simpa [unitNs] using hb
    rw [e2]
    have harg : digitsVal ds * 24 * hourNs = digitsVal ds * unitNs 'd' := by
      rw [show unitNs 'd' = 86400000000000 from by decide,
        show hourNs = 3600000000000 from rfl]
      ring
    rw [harg]
  · rw [if_neg (by decide), if_pos rfl]
    have e : wrap64 (digitsVal ds * hourNs) = digitsVal ds * hourNs := by
      refine wrap64_eq_self _ (by unfold hourNs; positivity) ?_
      simpa [unitNs] using hb
    rw [e]
    simp [unitNs]
  · rw [if_neg (by decide), if_neg (by decide), if_pos rfl]
    have e : wrap64 (digitsVal ds * minuteNs) = digitsVal ds * minuteNs := by
      refine wrap64_eq_self _ (by unfold minuteNs; positivity) ?_
      simpa [unitNs] using hb
    rw [e]
    simp [unitNs]
  · rw [if_neg (by decide), if_neg (by decide), if_neg (by decide),
      if_pos rfl]
    have e : wrap64 (digitsVal ds * secNs) = digitsVal ds * secNs := by
      refine wrap64_eq_self _ (by unfold secNs; positivity) ?_
      simpa [unitNs] using hb
    rw [e]
    simp [unitNs]

theorem relLoop_body :
    ∀ (ps : List (GoStr × Char)) (res : GoTime),
      (∀ p ∈ ps, p.1 ≠ [] ∧ (∀ c ∈ p.1, isDigitCh c = true) ∧
        (p.2 = 'd' ∨ p.2 = 'h' ∨ p.2 = 'm' ∨ p.2 = 's')) →
      (∀ p ∈ ps, digitsVal p.1 * unitNs p.2 ≤ maxInt64) →
      relLoop ((ps.map (fun p => p.1 ++ [p.2])).flatten) [] res
        = some (res + sumRelNs ps) := by
  intro ps
  induction ps with
  | nil => intro res _ _; simp [relLoop, sumRelNs]
  | cons p ps ih =>
    intro res good hb
    have hp := good p (List.mem_cons_self _ _)
    have hbp := hb p (List.mem_cons_self _ _)
    rw [List.map_cons, List.flatten_cons, List.append_assoc,
      List.singleton_append,
      relLoop_group p.1 p.2 _ res hp.1 hp.2.1 hp.2.2 hbp,
      ih _ (fun x hx => good x (List.mem_cons_of_mem _ hx))
        (fun x hx => hb x (List.mem_cons_of_mem _ hx))]
    have : res + digitsVal p.1 * unitNs p.2 + sumRelNs ps
        = res + sumRelNs (p :: ps) := by
      simp [sumRelNs]
      ring
    rw [this]

theorem relDigits_group :
    ∀ (ds : GoStr) (u : Char) (rest : GoStr),
      (∀ c ∈ ds, isDigitCh c = true) →
      (u = 'd' ∨ u = 'h' ∨ u = 'm' ∨ u = 's') →
      relDigits (ds ++ u :: rest) = relTail rest := by
  intro ds
  induction ds with
  | nil =>
    intro u rest _ hu
    rw [List.nil_append, relDigits, if_neg (by simp [unit_not_digit u hu]),
      if_pos hu]
  | cons c cs ih =>
    intro u rest hd hu
    have hc : isDigitCh c = true := hd c (List.mem_cons_self _ _)
    rw [List.cons_append, relDigits, if_pos hc,
      ih u rest (fun x hx => hd x (List.mem_cons_of_mem _ hx)) hu]

theorem relTail_body :
    ∀ ps : List (GoStr × Char),
      (∀ p ∈ ps, p.1 ≠ [] ∧ (∀ c ∈ p.1, isDigitCh c = true) ∧
        (p.2 = 'd' ∨ p.2 = 'h' ∨ p.2 = 'm' ∨ p.2 = 's')) →
      relTail ((ps.map (fun p => p.1 ++ [p.2])).flatten) = true := by
  intro ps
  induction ps with
  | nil => intro _; rfl
  | cons p ps ih =>
    intro good
    have hp := good p (List.mem_cons_self _ _)
    rcases hds : p.1 with _ | ⟨c, ds'⟩
    · exact absurd hds hp.1
    · have hd := hp.2.1
      rw [hds] at hd
      have hc : isDigitCh c = true := hd c (List.mem_cons_self _ _)
      rw [List.map_cons, List.flatten_cons, hds]
      simp only [List.cons_append, List.append_assoc, List.singleton_append,
        List.nil_append]
      rw [relTail, if_pos hc,
        relDigits_group ds' p.2 _
          (fun x hx => hd x (List.mem_cons_of_mem _ hx)) hp.2.2,
        ih (fun x hx => good x (List.mem_cons_of_mem _ hx))]

theorem relMatch_render (ps : List (GoStr × Char)) (hne : ps ≠ [])
    (good : ∀ p ∈ ps, p.1 ≠ [] ∧ (∀ c ∈ p.1, isDigitCh c = true) ∧
      (p.2 = 'd' ∨ p.2 = 'h' ∨ p.2 = 'm' ∨ p.2 = 's')) :
    relMatch (renderRel ps) = true := by
  rcases ps with _ | ⟨p, ps'⟩
  · exact absurd rfl hne
  · have hp := good p (List.mem_cons_self _ _)
    rcases hds : p.1 with _ | ⟨c, ds'⟩
    · exact absurd hds hp.1
    · have hd := hp.2.1
      rw [hds] at hd
      have hc : isDigitCh c = true := hd c (List.mem_cons_self _ _)
      show relMatch
        ('+' :: ((List.map (fun p => p.1 ++ [p.2]) (p :: ps')).flatten)) = true
      rw [List.map_cons, List.flatten_cons, hds]
      simp only [List.cons_append, List.append_assoc, List.singleton_append,
        List.nil_append]
      rw [show relMatch ('+' :: c :: (ds' ++ p.2 ::
          (List.map (fun p => p.1 ++ [p.2]) ps').flatten))
          = (isDigitCh c && relDigits (ds' ++ p.2 ::
            (List.map (fun p => p.1 ++ [p.2]) ps').flatten)) from rfl]
      rw [hc,
        relDigits_group ds' p.2 _
          (fun x hx => hd x (List.mem_cons_of_mem _ hx)) hp.2.2,
        relTail_body ps' (fun x hx => good x (List.mem_cons_of_mem _ hx))]
      rfl

/-! #### Dispatch facts for relative phrases -/

theorem renderRel_chars (ps : List (GoStr × Char))
    (good : ∀ p ∈ ps, p.1 ≠ [] ∧ (∀ c ∈ p.1, isDigitCh c = true) ∧
      (p.2 = 'd' ∨ p.2 = 'h' ∨ p.2 = 'm' ∨ p.2 = 's')) :
    ∀ c ∈ renderRel ps,
      isSpaceGo c = false ∧ (c.toNat < 65 ∨ 90 < c.toNat) := by
  intro c hc
  rcases List.mem_cons.mp hc with h | h
  · subst h
    exact ⟨by decide, by decide⟩
  · rcases List.mem_flatten.mp h with ⟨l, hl, hcl⟩
    rcases List.mem_map.mp hl with ⟨p, hp, hpl⟩
    subst hpl
    rcases List.mem_append.mp hcl with h2 | h2
    · have hdig := (good p hp).2.1 c h2
      simp only [isDigitCh, decide_eq_true_eq] at hdig
      constructor
      · simp only [isSpaceGo]
        simp only [decide_eq_false_iff_not]
        intro hsp
        rcases hsp with h3 | h3 | h3 | h3 | h3 | h3 | h3 | h3 | h3 | h3 | h3 <;>
          omega
      · omega
    · have : c = p.2 := by simpa using h2
      subst this
      rcases (good p hp).2.2 with h3 | h3 | h3 | h3 <;> rw [h3] <;>
        exact ⟨by decide, by decide⟩

theorem dropWhile_false_of_head (s : GoStr)
    (h : ∀ c ∈ s, isSpaceGo c = false) : s.dropWhile isSpaceGo = s := by
  cases s with
  | nil => rfl
  | cons c cs =>
    exact List.dropWhile_cons_of_neg (by simp [h c (List.mem_cons_self _ _)])

theorem goTrim_nospace (s : GoStr)
    (h : ∀ c ∈ s, isSpaceGo c = false) : goTrim s = s := by
  unfold goTrim
  rw [dropWhile_false_of_head s h,
    dropWhile_false_of_head s.reverse
      (fun c hc => h c (List.mem_reverse.mp hc)),
    List.reverse_reverse]

theorem fields_nospace (s : GoStr) (hne : s ≠ [])
    (h : ∀ c ∈ s, isSpaceGo c = false) : fields s = [s] := by
  calc fields s = fieldsAux (s ++ []) [] := by rw [List.append_nil]; rfl
    _ = fieldsAux [] (s.reverse ++ []) := fieldsAux_accum s [] [] h
    _ = [s] := by simp [fieldsAux, hne]

theorem goToLower_no_upper (s : GoStr)
    (h : ∀ c ∈ s, c.toNat < 65 ∨ 90 < c.toNat) : goToLower s = s := by
  unfold goToLower
  have he : ∀ c ∈ s, lowerCh c = c := by
    intro c hc
    unfold lowerCh
    rw [if_neg]
    have := h c hc
    omega
  calc s.map lowerCh = s.map id := List.map_congr_left he
    _ = s := List.map_id s

theorem wkFind_none_of_head_ne :
    ∀ (tbl : List (GoStr × Int)) (l : GoStr),
      (∀ kv ∈ tbl, kv.1.head? ≠ l.head?) → wkFind l tbl = none := by
  intro tbl
  induction tbl with
  | nil => intro l _; rfl
  | cons kv t ih =>
    intro l hne
    rw [wkFind, if_neg, ih l (fun x hx => hne x (List.mem_cons_of_mem _ hx))]
    intro he
    exact hne kv (List.mem_cons_self _ _) (by rw [he])

theorem lookupWeekday_plus (cs : GoStr) :
    lookupWeekday ('+' :: cs) = none := by
  refine wkFind_none_of_head_ne wkTable ('+' :: cs) ?_
  intro kv hkv
  have : ∀ kv ∈ wkTable, kv.1.head? ≠ some '+' := by decide
  simpa using this kv hkv

theorem startsWithL_plus_tomorrow (cs : GoStr) :
    startsWithL ('+' :: cs) ("tomorrow".toList) = false := by
  rw [show ("tomorrow".toList : GoStr) =
    't' :: "omorrow".toList from rfl]
  rw [show startsWithL ('+' :: cs) ('t' :: "omorrow".toList)
    = (decide ('+' = 't') && startsWithL cs ("omorrow".toList)) from rfl]
  simp

theorem inPatternMatch_plus (cs : GoStr) :
    inPatternMatch ('+' :: cs) = none := rfl

theorem parseWeekday_plus (cs : GoStr) (R : GoTime)
    (h : ∀ c ∈ ('+' :: cs : GoStr), isSpaceGo c = false) :
    parseWeekday ('+' :: cs) R = none := by
  unfold parseWeekday
  rw [fields_nospace ('+' :: cs) (by simp) h]
  simp [lookupWeekday_plus]

/-- C5 counterexample: `"+99999999999999999999d"` is a well-formed relative
phrase (`relativePattern` matches it), yet `Parse` fails on it instead of
returning the reference instant advanced by that many days:
`strconv.Atoi` rejects the value as out of the signed 64-bit range. -/
theorem parse_relative_overflow_counterexample :
    relMatch ("+99999999999999999999d").toList = true ∧
    Parse ("+99999999999999999999d").toList 0 = none := by
  exact ⟨by decide, by decide⟩

/-- C5 amended: for every reference instant R and phrase `+` followed by
one or more `<integer><unit>` groups with units d, h, m, s, PROVIDED each
group's value converted to nanoseconds fits in a signed 64-bit integer (so
neither `strconv.Atoi` nor the `time.Duration` multiplication overflows),
`Parse` succeeds and returns R advanced by exactly the literal sum of the
listed durations, a day counted as 24 hours. -/
theorem parse_relative_amended (ps : List (GoStr × Char)) (R : GoTime)
    (hne : ps ≠ [])
    (good : ∀ p ∈ ps, p.1 ≠ [] ∧ (∀ c ∈ p.1, isDigitCh c = true) ∧
      (p.2 = 'd' ∨ p.2 = 'h' ∨ p.2 = 'm' ∨ p.2 = 's'))
    (hbound : ∀ p ∈ ps, digitsVal p.1 * unitNs p.2 ≤ maxInt64) :
    Parse (renderRel ps) R = some (R + sumRelNs ps) := by
  have hchars := renderRel_chars ps good
  have htrim : goTrim (renderRel ps) = renderRel ps :=
    goTrim_nospace _ (fun c hc => (hchars c hc).1)
  have hlower : goToLower (renderRel ps) = renderRel ps :=
    goToLower_no_upper _ (fun c hc => (hchars c hc).2)
  have hpw : parseWeekday
      ('+' :: (ps.map (fun p => p.1 ++ [p.2])).flatten) R = none :=
    parseWeekday_plus _ R (fun c hc => (hchars c hc).1)
  have hrm : relMatch
      ('+' :: (ps.map (fun p => p.1 ++ [p.2])).flatten) = true :=
    relMatch_render ps hne good
  simp only [Parse]
  rw [htrim, hlower]
  rw [show renderRel ps =
    '+' :: (ps.map (fun p => p.1 ++ [p.2])).flatten from rfl]
  rw [startsWithL_plus_tomorrow]
  simp only [Bool.false_eq_true, if_false, inPatternMatch_plus, hpw, hrm,
    if_true]
  show relLoop
    (('+' :: (ps.map (fun p => p.1 ++ [p.2])).flatten).drop 1) [] R = _
  simp only [List.drop_succ_cons, List.drop_zero]
  exact relLoop_body ps R good hbound

theorem parse_relative_amended_witness :
    Parse ("+1h30m").toList 0 = some 5400000000000 := by
  have h := parse_relative_amended [(['1'], 'h'), (['3', '0'], 'm')] 0
    (by decide)
    (by intro p hp; simp at hp; rcases hp with h | h <;> simp [h] <;> decide)
    (by intro p hp; simp at hp; rcases hp with h | h <;> rw [h] <;> decide)
  rw [show renderRel [(['1'], 'h'), (['3', '0'], 'm')]
      = ("+1h30m").toList from by decide,
    show (0 : Int) + sumRelNs [(['1'], 'h'), (['3', '0'], 'm')]
      = 5400000000000 from by decide] at h
  exact h

/-! ### C6: weekday phrases -/

theorem wkFind_key_mem :
    ∀ (tbl : List (GoStr × Int)) (l : GoStr) (v : Int),
      wkFind l tbl = some v → l ∈ tbl.map Prod.fst := by
  intro tbl
  induction tbl with
  | nil => intro l v h; simp [wkFind] at h
  | cons kv t ih =>
    intro l v h
    rw [wkFind] at h
    by_cases he : l = kv.1
    · exact List.mem_map.mpr ⟨kv, List.mem_cons_self _ _, he.symm⟩
    · rw [if_neg he] at h
      exact List.mem_cons_of_mem _ (ih l v h)

theorem wkFind_val_mem :
    ∀ (tbl : List (GoStr × Int)) (l : GoStr) (v : Int),
      wkFind l tbl = some v → v ∈ tbl.map Prod.snd := by
  intro tbl
  induction tbl with
  | nil => intro l v h; simp [wkFind] at h
  | cons kv t ih =>
    intro l v h
    rw [wkFind] at h
    by_cases he : l = kv.1
    · rw [if_pos he] at h
      simp only [Option.some.injEq] at h
      exact List.mem_map.mpr ⟨kv, List.mem_cons_self _ _, h⟩
    · rw [if_neg he] at h
      exact List.mem_cons_of_mem _ (ih l v h)

/-- The arithmetic core of `parseWeekday`: next-occurrence day selection at
09:00.  `k` is the computed `daysUntil`, `t` the returned instant. -/
theorem weekday_core (R : Int) (target : Int) (h0 : 0 ≤ target)
    (h6 : target ≤ 6) (k : Int)
    (hk : k = if target - weekdayOf R ≤ 0 then target - weekdayOf R + 7
      else target - weekdayOf R) (t : Int)
    (ht : t = atClock (addDays R k) 9 0 0) :
    R < t ∧ weekdayOf t = target ∧ timeOfDay t = 9 * hourNs ∧
      (weekdayOf R = target → floorDay t = floorDay R + 7) := by
  subst ht
  unfold atClock addDays weekdayOf floorDay timeOfDay at *
  simp only [dayNs, hourNs, minuteNs, secNs, zero_mul, add_zero] at *
  have hq2 : (R + k * 86400000000000) / 86400000000000
      = R / 86400000000000 + k :=
    Int.add_mul_ediv_right _ _ (by norm_num)
  have hfl : ∀ q : Int,
      (q * 86400000000000 + 9 * 3600000000000) / 86400000000000 = q := by
    intro q
    rw [add_comm, Int.add_mul_ediv_right _ _
      (by norm_num : (86400000000000 : Int) ≠ 0),
      Int.ediv_eq_zero_of_lt (by norm_num) (by norm_num), zero_add]
  have hmd : ∀ q : Int,
      (q * 86400000000000 + 9 * 3600000000000) % 86400000000000
        = 9 * 3600000000000 := by
    intro q
    rw [add_comm, Int.add_mul_emod_self,
      Int.emod_eq_of_lt (by norm_num) (by norm_num)]
  rw [hq2, hfl, hmd]
  by_cases hle : target - (R / 86400000000000 + 4) % 7 ≤ 0
  · rw [if_pos hle] at hk
    subst hk
    refine ⟨?_, ?_, ?_, ?_⟩ <;> omega
  · rw [if_neg hle] at hk
    subst hk
    refine ⟨?_, ?_, ?_, ?_⟩ <;> omega

/-- C6: for every input string whose trimmed, lowercased form is an
accepted weekday name (full or abbreviated, hence case-insensitively) and
every reference instant R, `Parse` succeeds; the result is strictly after
R, falls on the named weekday, and its time-of-day is 09:00 (no time
clause given); when R's weekday already equals the named one the result is
exactly 7 days after R's date. -/
theorem parse_weekday_next_occurrence (s : GoStr) (R : GoTime)
    (target : Int)
    (h : lookupWeekday (goToLower (goTrim s)) = some target) :
    ∃ t, Parse s R = some t ∧ R < t ∧ weekdayOf t = target ∧
      timeOfDay t = 9 * hourNs ∧
      (weekdayOf R = target → floorDay t = floorDay R + 7) := by
  have hmem : goToLower (goTrim s) ∈ wkTable.map Prod.fst :=
    wkFind_key_mem wkTable _ target h
  have hvb : 0 ≤ target ∧ target ≤ 6 := by
    have hv := wkFind_val_mem wkTable _ target h
    exact (by decide : ∀ x ∈ wkTable.map Prod.snd, 0 ≤ x ∧ x ≤ 6) _ hv
  have hfacts : startsWithL (goToLower (goTrim s)) ("tomorrow".toList)
        = false ∧
      inPatternMatch (goToLower (goTrim s)) = none ∧
      fields (goToLower (goTrim s)) = [goToLower (goTrim s)] :=
    (by decide : ∀ x ∈ wkTable.map Prod.fst,
      startsWithL x ("tomorrow".toList) = false ∧
      inPatternMatch x = none ∧ fields x = [x]) _ hmem
  have hpw : parseWeekday (goToLower (goTrim s)) R =
      some (atClock (addDays R
        (if target - weekdayOf R ≤ 0 then target - weekdayOf R + 7
         else target - weekdayOf R)) 9 0 0) := by
    unfold parseWeekday
    rw [hfacts.2.2]
    simp only [h]
  refine ⟨atClock (addDays R
      (if target - weekdayOf R ≤ 0 then target - weekdayOf R + 7
       else target - weekdayOf R)) 9 0 0, ?_,
    weekday_core R target hvb.1 hvb.2 _ rfl _ rfl⟩
  simp only [Parse]
  rw [hfacts.1]
  simp only [Bool.false_eq_true, if_false, hfacts.2.1, hpw]

theorem parse_weekday_next_occurrence_witness :
    ∃ t, Parse ("Friday").toList 0 = some t ∧ (0 : Int) < t ∧
      weekdayOf t = 5 ∧ timeOfDay t = 9 * hourNs ∧
      (weekdayOf 0 = 5 → floorDay t = floorDay 0 + 7) :=
  parse_weekday_next_occurrence ("Friday").toList 0 5 (by decide)

end GoRemind
